import Mathlib

/-
Shallow embedding of the Stoix repository's batched multistep-return
utilities (stoix/utils/multistep.py) and of the total-timestep config
helper (stoix/utils/total_timestep_checker.py).

Modelling conventions:
- A batched 2-D JAX array of shape (rows, cols) is a `List (List ℚ)`
  (a list of rows); float arithmetic is modelled exactly over `ℚ`.
- `jnp.swapaxes(x, 0, 1)` on a rectangular 2-D array is the transpose,
  modelled by `swapaxes`.
- `jax.lax.stop_gradient` is numerically the identity and is modelled
  as `stop_gradient := id`; `jax.lax.select` on a scalar boolean
  predicate is modelled as `select`.
- `jax.lax.scan` with `reverse=True` is modelled by `scanBack`, which
  returns the final carry together with the stacked per-step outputs
  in original (forward) order.
- Python ints are modelled as `ℤ` and Python floor division `//` as
  `Int.fdiv`.
-/

namespace Stoix

abbrev Vec := List ℚ
abbrev Mat := List Vec

/-- Elementwise sum of two equally-shaped 1-D arrays (`x + y`). -/
def vAdd (x y : Vec) : Vec := List.zipWith (· + ·) x y

/-- Elementwise difference of two equally-shaped 1-D arrays (`x - y`). -/
def vSub (x y : Vec) : Vec := List.zipWith (· - ·) x y

/-- Elementwise product of two equally-shaped 1-D arrays (`x * y`). -/
def vMul (x y : Vec) : Vec := List.zipWith (· * ·) x y

/-- Elementwise sum of two equally-shaped 2-D arrays. -/
def matAdd (x y : Mat) : Mat := List.zipWith vAdd x y

/-- Elementwise difference of two equally-shaped 2-D arrays. -/
def matSub (x y : Mat) : Mat := List.zipWith vSub x y

/-- Elementwise (Hadamard) product of two equally-shaped 2-D arrays. -/
def matMul (x y : Mat) : Mat := List.zipWith vMul x y

/-- `jnp.ones_like(m)`. -/
def onesLike (m : Mat) : Mat := m.map (fun row => row.map (fun _ => (1 : ℚ)))

/-- `1.0 - m` with a scalar broadcast against a 2-D array. -/
def matOneSub (m : Mat) : Mat := m.map (fun row => row.map (fun x => 1 - x))

/-- Length of the rows of a (rectangular) 2-D array, i.e. `m.shape[1]`. -/
def rowLen (m : Mat) : ℕ := (m.headD []).length

/-- Column `t` of a 2-D array: the values `m[b][t]` over the leading axis. -/
def column (m : Mat) (t : ℕ) : Vec := m.map (fun row => row.getD t 0)

/-- `jnp.swapaxes(m, 0, 1)`: the transpose of a rectangular 2-D array. -/
def swapaxes (m : Mat) : Mat := (List.range (rowLen m)).map (fun t => column m t)

/-- `jax.lax.stop_gradient`: numerically the identity. -/
def stop_gradient {α : Type} (x : α) : α := x

/-- `jax.lax.select` applied with a scalar boolean predicate. -/
def select {α : Type} (b : Bool) (x y : α) : α := if b then x else y

/-- `jax.lax.scan` with `reverse=True`: folds `f` from the last element to
the first, returning the final carry and the stacked outputs in forward
order. -/
def scanBack {α β : Type} (f : α → β → β) : List α → β → β × List β
  | [], acc => (acc, [])
  | x :: xs, acc =>
    let r := scanBack f xs acc
    (f x r.1, f x r.1 :: r.2)

/-- Zip three lists into a list of triples (the tuple of per-step slices
scanned over by `jax.lax.scan`). -/
def zip3 {α β γ : Type} : List α → List β → List γ → List (α × β × γ)
  | a :: as_, b :: bs_, c :: cs_ => (a, b, c) :: zip3 as_ bs_ cs_
  | _, _, _ => []

/-- Zip five lists into a list of quintuples. -/
def zip5 {α β γ δ ε : Type} :
    List α → List β → List γ → List δ → List ε → List (α × β × γ × δ × ε)
  | a :: as_, b :: bs_, c :: cs_, d :: ds_, e :: es_ =>
      (a, b, c, d, e) :: zip5 as_ bs_ cs_ ds_ es_
  | _, _, _, _, _ => []

/-- `m` is a rectangular 2-D array with `R` rows and `C` columns. -/
def IsRect (m : Mat) (R C : ℕ) : Prop :=
  m.length = R ∧ ∀ row ∈ m, row.length = C

instance (m : Mat) (R C : ℕ) : Decidable (IsRect m R C) :=
  inferInstanceAs (Decidable (m.length = R ∧ ∀ row ∈ m, row.length = C))

/-- A `Union[chex.Array, chex.Scalar]` mixing parameter: either a scalar
broadcast to every step, or a per-step 2-D array. -/
inductive LambdaArg where
  | scalar (c : ℚ)
  | array (a : Mat)

/-- `jnp.ones_like(d) * lambda_`: broadcast a scalar-or-array mixing
parameter against the discount array `d`. -/
def broadcastLambda (lambda_ : LambdaArg) (d : Mat) : Mat :=
  match lambda_ with
  | .scalar c => (onesLike d).map (fun row => row.map (fun x => x * c))
  | .array a => matMul (onesLike d) a

/-- `x * lambda_` for a scalar-or-array `lambda_` (used by retrace). -/
def mulLambda (m : Mat) (lambda_ : LambdaArg) : Mat :=
  match lambda_ with
  | .scalar c => m.map (fun row => row.map (fun x => x * c))
  | .array a => matMul m a

/-- The value of the broadcast mixing parameter at time-step `t`, as a
batch vector of width `B`. -/
def LambdaArg.colAt (lambda_ : LambdaArg) (B t : ℕ) : Vec :=
  match lambda_ with
  | .scalar c => List.replicate B c
  | .array a => a.getD t []

/-- Shape contract for a mixing parameter: a per-step array must be a
time-major `K × B` rectangle (the layout `jnp.ones_like(discount_t) *
lambda_` requires after the time axis is brought to the front); a scalar
has no shape constraint. -/
def LambdaArg.Rect (lambda_ : LambdaArg) (K B : ℕ) : Prop :=
  match lambda_ with
  | .scalar _ => True
  | .array a => IsRect a K B

/-- Scan body of `batch_truncated_generalized_advantage_estimation`:
`acc = deltas + discounts * lambda_ * acc`. -/
def gaeBody (x : Vec × Vec × Vec) (acc : Vec) : Vec :=
  vAdd x.1 (vMul (vMul x.2.1 x.2.2) acc)

/-- One-step TD residuals of `batch_truncated_generalized_advantage_estimation`:
`delta_t = r_t + discount_t * values[1:] - values[:-1]` (time-major). -/
def gaeDelta (r' discount' values' : Mat) : Mat :=
  matSub (matAdd r' (matMul discount' values'.tail)) values'.dropLast

/-- Time-major core of `batch_truncated_generalized_advantage_estimation`
(lines 58-74 of multistep.py): broadcast lambda, one-step TD residuals,
reverse scan from a zero carry, and target values. -/
def gaeCore (r' discount' : Mat) (lambda_ : LambdaArg) (values' : Mat)
    (batch_size : ℕ) : Mat × Mat :=
  let advantage_t :=
    (scanBack gaeBody
      (zip3 (gaeDelta r' discount' values') discount' (broadcastLambda lambda_ discount'))
      (List.replicate batch_size 0)).2
  (advantage_t, matAdd values'.dropLast advantage_t)

/-- `batch_truncated_generalized_advantage_estimation` from
stoix/utils/multistep.py.  Returns `(advantage_t, target_values)`. -/
def batch_truncated_generalized_advantage_estimation
    (r_t discount_t : Mat) (lambda_ : LambdaArg) (values : Mat)
    (stop_target_gradients : Bool) (time_major : Bool) : Mat × Mat :=
  let batch_size := if time_major then rowLen r_t else r_t.length
  let r' := if time_major then r_t else swapaxes r_t
  let discount' := if time_major then discount_t else swapaxes discount_t
  let values' := if time_major then values else swapaxes values
  let core := gaeCore r' discount' lambda_ values' batch_size
  let advantage_b := if time_major then core.1 else swapaxes core.1
  let target_b := if time_major then core.2 else swapaxes core.2
  if stop_target_gradients then (stop_gradient advantage_b, stop_gradient target_b)
  else (advantage_b, target_b)

/-- One combination pass of `batch_n_step_bootstrapped_returns`:
`targets = r_ + discount_ * ((1.0 - lambda_) * v_ + lambda_ * targets)`. -/
def nstepBody (r_ discount_ lambda_ v_ targets : Mat) : Mat :=
  matAdd r_ (matMul discount_ (matAdd (matMul (matOneSub lambda_) v_) (matMul lambda_ targets)))

/-- `for i in reversed(range(n))` loop of `batch_n_step_bootstrapped_returns`:
`nstepLoop rp dp lp vp seqLen n targets` applies the pass at index `n-1`
first and at index `0` last. -/
def nstepLoop (rp dp lp vp : Mat) (seqLen : ℕ) : ℕ → Mat → Mat
  | 0, targets => targets
  | i + 1, targets =>
    nstepLoop rp dp lp vp seqLen i
      (nstepBody ((rp.drop i).take seqLen) ((dp.drop i).take seqLen)
        ((lp.drop i).take seqLen) ((vp.drop i).take seqLen) targets)

/-- `batch_n_step_bootstrapped_returns` from stoix/utils/multistep.py.

The guard models the `jnp.concatenate` rank check on line 130: the value
padding `jnp.array([v_t[-1]] * pad_size)` has shape `(0,)` (rank 1, not
rank 2) whenever `pad_size = min(n - 1, seq_len) ≤ 0`, and concatenating
it with the rank-2 `v_t[n - 1:]` raises, so the call fails (returns no
value, modelled as `none`) exactly when `min(n - 1, seq_len) ≤ 0`. -/
def batch_n_step_bootstrapped_returns (r_t discount_t v_t : Mat) (n : ℤ)
    (lambda_t : LambdaArg) (stop_target_gradients : Bool) : Option Mat :=
  let r' := swapaxes r_t
  let discount' := swapaxes discount_t
  let v' := swapaxes v_t
  let seq_len := r'.length
  let batch_size := rowLen r'
  let lam := broadcastLambda lambda_t discount'
  if min (n - 1) (seq_len : ℤ) ≤ 0 then none
  else
    let nn := n.toNat
    let pad_size := min (nn - 1) seq_len
    let lastv := v'.getLastD []
    let targets := v'.drop (nn - 1) ++ List.replicate pad_size lastv
    let rp := r' ++ List.replicate (nn - 1) (List.replicate batch_size 0)
    let dp := discount' ++ List.replicate (nn - 1) (List.replicate batch_size 1)
    let lp := lam ++ List.replicate (nn - 1) (List.replicate batch_size 1)
    let vp := v' ++ List.replicate (nn - 1) lastv
    let res := swapaxes (nstepLoop rp dp lp vp seq_len nn targets)
    some (select stop_target_gradients (stop_gradient res) res)

/-- Scan body of `batch_general_off_policy_returns_from_q_and_v`:
`acc = reward + discount * (v - c * q + c * acc)` where
`x = (reward, discount, c, v, q)`. -/
def opBody (x : Vec × Vec × Vec × Vec × Vec) (acc : Vec) : Vec :=
  vAdd x.1 (vMul x.2.1 (vAdd (vSub x.2.2.2.1 (vMul x.2.2.1 x.2.2.2.2)) (vMul x.2.2.1 acc)))

/-- Time-major core of `batch_general_off_policy_returns_from_q_and_v`
(lines 194-206 of multistep.py): terminal estimate, reverse scan, and the
terminal estimate appended at the end. -/
def offPolicyCore (q' v' r' discount' c' : Mat) : Mat :=
  let g := vAdd (r'.getLastD []) (vMul (discount'.getLastD []) (v'.getLastD []))
  (scanBack opBody (zip5 r'.dropLast discount'.dropLast c' v'.dropLast q') g).2 ++ [g]

/-- `batch_general_off_policy_returns_from_q_and_v` from
stoix/utils/multistep.py. -/
def batch_general_off_policy_returns_from_q_and_v
    (q_t v_t r_t discount_t c_t : Mat) (stop_target_gradients : Bool) : Mat :=
  let returnsB :=
    swapaxes (offPolicyCore (swapaxes q_t) (swapaxes v_t) (swapaxes r_t)
      (swapaxes discount_t) (swapaxes c_t))
  select stop_target_gradients (stop_gradient returnsB) returnsB

/-- `batch_retrace_continuous` from stoix/utils/multistep.py.

`jnp.exp` is a transcendental float function with no exact rational
counterpart, so it is modelled by an explicit function parameter `expF`;
every statement proved about this definition holds for an arbitrary
`expF`. -/
def batch_retrace_continuous (expF : ℚ → ℚ)
    (q_tm1 q_t v_t r_t discount_t log_rhos : Mat) (lambda_ : LambdaArg)
    (stop_target_gradients : Bool) : Mat :=
  let c_t := mulLambda (log_rhos.map (fun row => row.map (fun x => min 1 (expF x)))) lambda_
  let target_tm1 := batch_general_off_policy_returns_from_q_and_v q_t v_t r_t discount_t c_t false
  let target2 := select stop_target_gradients (stop_gradient target_tm1) target_tm1
  matSub target2 q_tm1

/-- The `config.system` fields read by `check_total_timesteps`. -/
structure SystemConfig where
  rollout_length : ℤ
  update_batch_size : ℤ
deriving DecidableEq

/-- The `config.arch` fields read or written by `check_total_timesteps`. -/
structure ArchConfig where
  total_timesteps : Option ℤ
  num_updates : ℤ
  num_envs : ℤ
deriving DecidableEq

/-- The part of the Hydra config touched by `check_total_timesteps`. -/
structure Config where
  arch : ArchConfig
  system : SystemConfig
deriving DecidableEq

/-- `check_total_timesteps` from stoix/utils/total_timestep_checker.py.
`n_devices` stands for `len(jax.devices())`; the console print in the
`else` branch has no effect on the returned config. -/
def check_total_timesteps (n_devices : ℤ) (config : Config) : Config :=
  match config.arch.total_timesteps with
  | none =>
    ⟨⟨some (n_devices * config.arch.num_updates * config.system.rollout_length *
        config.system.update_batch_size * config.arch.num_envs),
      config.arch.num_updates, config.arch.num_envs⟩, config.system⟩
  | some t =>
    ⟨⟨some t,
      (((t.fdiv config.system.rollout_length).fdiv config.system.update_batch_size).fdiv
        config.arch.num_envs).fdiv n_devices,
      config.arch.num_envs⟩, config.system⟩

/- Indexing infrastructure: total (default-valued) list indexing. -/

theorem getD_irrel {α : Type} (l : List α) (n : ℕ) (d d' : α) (h : n < l.length) :
    l.getD n d = l.getD n d' := by
  induction l generalizing n with
  | nil => simp at h
  | cons a t ih =>
    cases n with
    | zero => rfl
    | succ m => simpa using ih m (by simpa using h)

theorem getD_eq_get {α : Type} (l : List α) (n : ℕ) (d : α) (h : n < l.length) :
    l.getD n d = l.get ⟨n, h⟩ := by
  induction l generalizing n with
  | nil => simp at h
  | cons a t ih =>
    cases n with
    | zero => rfl
    | succ m => simpa using ih m (by simpa using h)

theorem getD_map {α β : Type} (f : α → β) (l : List α) (n : ℕ) (d : β) (d0 : α)
    (hn : n < l.length) : (l.map f).getD n d = f (l.getD n d0) := by
  induction l generalizing n with
  | nil => simp at hn
  | cons a t ih =>
    cases n with
    | zero => rfl
    | succ m => simpa using ih m (by simpa using hn)

theorem getD_zipWith {α β γ : Type} (f : α → β → γ) (x : List α) (y : List β)
    (n : ℕ) (d : γ) (dx : α) (dy : β) (hx : n < x.length) (hy : n < y.length) :
    (List.zipWith f x y).getD n d = f (x.getD n dx) (y.getD n dy) := by
  induction x generalizing y n with
  | nil => simp at hx
  | cons a t ih =>
    cases y with
    | nil => simp at hy
    | cons b u =>
      cases n with
      | zero => rfl
      | succ m => simpa using ih u m (by simpa using hx) (by simpa using hy)

theorem getD_append_lt {α : Type} (x y : List α) (n : ℕ) (d : α) (h : n < x.length) :
    (x ++ y).getD n d = x.getD n d := by
  induction x generalizing n with
  | nil => simp at h
  | cons a t ih =>
    cases n with
    | zero => rfl
    | succ m => simpa using ih m (by simpa using h)

theorem getD_append_ge {α : Type} (x y : List α) (n : ℕ) (d : α) (h : x.length ≤ n) :
    (x ++ y).getD n d = y.getD (n - x.length) d := by
  induction x generalizing n with
  | nil => simp
  | cons a t ih =>
    cases n with
    | zero => simp at h
    | succ m => simpa [Nat.succ_sub_succ] using ih m (by simpa using h)

theorem getD_replicate {α : Type} (k n : ℕ) (a d : α) (h : n < k) :
    (List.replicate k a).getD n d = a := by
  induction k generalizing n with
  | zero => omega
  | succ m ih =>
    cases n with
    | zero => rfl
    | succ j => rw [List.replicate_succ, List.getD_cons_succ]; exact ih j (by omega)

theorem getD_drop {α : Type} (l : List α) (i n : ℕ) (d : α) :
    (l.drop i).getD n d = l.getD (i + n) d := by
  induction i generalizing l with
  | zero => simp
  | succ m ih =>
    cases l with
    | nil => simp
    | cons a t => rw [List.drop_succ_cons, ih t, Nat.succ_add, List.getD_cons_succ]

theorem getD_take {α : Type} (l : List α) (k n : ℕ) (d : α) (h : n < k) :
    (l.take k).getD n d = l.getD n d := by
  induction l generalizing k n with
  | nil => simp
  | cons a t ih =>
    cases k with
    | zero => omega
    | succ m =>
      cases n with
      | zero => rfl
      | succ j => simpa using ih m j (by omega)

theorem getD_tail {α : Type} (l : List α) (n : ℕ) (d : α) :
    l.tail.getD n d = l.getD (n + 1) d := by
  cases l <;> rfl

theorem getD_dropLast {α : Type} (l : List α) (n : ℕ) (d : α) (h : n + 1 < l.length) :
    l.dropLast.getD n d = l.getD n d := by
  rw [List.dropLast_eq_take]
  exact getD_take l (l.length - 1) n d (by omega)

theorem getLastD_eq_getD {α : Type} (l : List α) :
    ∀ d : α, l ≠ [] → l.getLastD d = l.getD (l.length - 1) d := by
  induction l with
  | nil => intro d h; simp at h
  | cons a t ih =>
    intro d _
    cases t with
    | nil => rfl
    | cons b u =>
      rw [List.getLastD_cons]
      have h2 := ih a (by simp)
      have hlt : (b :: u).length - 1 < (b :: u).length := by simp
      rw [getD_irrel (b :: u) ((b :: u).length - 1) a d hlt] at h2
      simpa using h2

theorem getD_mem {α : Type} (l : List α) (n : ℕ) (d : α) (h : n < l.length) :
    l.getD n d ∈ l := by
  induction l generalizing n with
  | nil => simp at h
  | cons a t ih =>
    cases n with
    | zero => simp
    | succ m => exact List.mem_cons_of_mem a (ih m (by simpa using h))

theorem mapCongr {α β : Type} (l : List α) (f g : α → β) (h : ∀ a ∈ l, f a = g a) :
    l.map f = l.map g := by
  induction l with
  | nil => rfl
  | cons a t ih =>
    simp only [List.map_cons]
    rw [h a (by simp), ih (fun x hx => h x (by simp [hx]))]

theorem rangeMap_getD {α : Type} (l : List α) (d : α) :
    (List.range l.length).map (fun j => l.getD j d) = l := by
  induction l with
  | nil => rfl
  | cons a t ih =>
    rw [List.length_cons, List.range_succ_eq_map, List.map_cons, List.map_map]
    have hc : ((fun j => (a :: t).getD j d) ∘ Nat.succ) = fun j => t.getD j d := by
      funext j; rfl
    rw [hc, ih]
    rfl

theorem getD_range (n t : ℕ) (d : ℕ) (h : t < n) : (List.range n).getD t d = t := by
  induction t generalizing n with
  | zero =>
    cases n with
    | zero => omega
    | succ m => rw [List.range_succ_eq_map]; rfl
  | succ j ih =>
    cases n with
    | zero => omega
    | succ m =>
      rw [List.range_succ_eq_map, List.getD_cons_succ,
        getD_map Nat.succ (List.range m) j d d (by simpa using by omega)]
      rw [ih m (by omega)]

theorem map_const_eq_replicate (l : Vec) (c : ℚ) :
    l.map (fun _ => c) = List.replicate l.length c := by
  induction l with
  | nil => rfl
  | cons a t ih => simp [List.replicate_succ, ih]

/- Vector algebra on equally-shaped batch vectors. -/

theorem vAdd_length (x y : Vec) : (vAdd x y).length = min x.length y.length := by
  simp [vAdd]

theorem vSub_length (x y : Vec) : (vSub x y).length = min x.length y.length := by
  simp [vSub]

theorem vMul_length (x y : Vec) : (vMul x y).length = min x.length y.length := by
  simp [vMul]

theorem vMul_zero_right (x : Vec) (B : ℕ) (h : x.length = B) :
    vMul x (List.replicate B 0) = List.replicate B 0 := by
  subst h
  induction x with
  | nil => rfl
  | cons a t ih =>
    simp only [List.length_cons, List.replicate_succ, vMul, List.zipWith_cons_cons, mul_zero]
    exact congrArg (0 :: ·) ih

theorem vMul_zero_left (x : Vec) (B : ℕ) (h : x.length = B) :
    vMul (List.replicate B 0) x = List.replicate B 0 := by
  subst h
  induction x with
  | nil => rfl
  | cons a t ih =>
    simp only [List.length_cons, List.replicate_succ, vMul, List.zipWith_cons_cons, zero_mul]
    exact congrArg (0 :: ·) ih

theorem vAdd_zero_right (x : Vec) (B : ℕ) (h : x.length = B) :
    vAdd x (List.replicate B 0) = x := by
  subst h
  induction x with
  | nil => rfl
  | cons a t ih =>
    simp only [List.length_cons, List.replicate_succ, vAdd, List.zipWith_cons_cons, add_zero]
    exact congrArg (a :: ·) ih

theorem vMul_one_left (x : Vec) (B : ℕ) (h : x.length = B) :
    vMul (List.replicate B 1) x = x := by
  subst h
  induction x with
  | nil => rfl
  | cons a t ih =>
    simp only [List.length_cons, List.replicate_succ, vMul, List.zipWith_cons_cons, one_mul]
    exact congrArg (a :: ·) ih

/- Rectangularity infrastructure. -/

theorem isRect_row {m : Mat} {R C : ℕ} (h : IsRect m R C) (b : ℕ) (hb : b < R) :
    (m.getD b []).length = C :=
  h.2 _ (getD_mem m b [] (by rw [h.1]; exact hb))

theorem isRect_of_getD (m : Mat) (R C : ℕ) (hlen : m.length = R)
    (h : ∀ b, b < R → (m.getD b []).length = C) : IsRect m R C := by
  refine ⟨hlen, fun row hrow => ?_⟩
  obtain ⟨⟨i, hi⟩, rfl⟩ := List.mem_iff_get.mp hrow
  have hiR : i < R := by rw [← hlen]; exact hi
  have := h i hiR
  rwa [getD_eq_get m i [] hi] at this

theorem isRect_matZip (op : Vec → Vec → Vec)
    (hop : ∀ a b : Vec, (op a b).length = min a.length b.length)
    (x y : Mat) (R C : ℕ) (hx : IsRect x R C) (hy : IsRect y R C) :
    IsRect (List.zipWith op x y) R C := by
  refine isRect_of_getD _ _ _ (by rw [List.length_zipWith, hx.1, hy.1, min_self])
    (fun b hb => ?_)
  rw [getD_zipWith op x y b [] [] [] (by rw [hx.1]; exact hb) (by rw [hy.1]; exact hb)]
  rw [hop, isRect_row hx b hb, isRect_row hy b hb, min_self]

theorem isRect_matAdd {x y : Mat} {R C : ℕ} (hx : IsRect x R C) (hy : IsRect y R C) :
    IsRect (matAdd x y) R C :=
  isRect_matZip vAdd vAdd_length x y R C hx hy

theorem isRect_matSub {x y : Mat} {R C : ℕ} (hx : IsRect x R C) (hy : IsRect y R C) :
    IsRect (matSub x y) R C :=
  isRect_matZip vSub vSub_length x y R C hx hy

theorem isRect_matMul {x y : Mat} {R C : ℕ} (hx : IsRect x R C) (hy : IsRect y R C) :
    IsRect (matMul x y) R C :=
  isRect_matZip vMul vMul_length x y R C hx hy

theorem isRect_tail {m : Mat} {R C : ℕ} (h : IsRect m (R + 1) C) : IsRect m.tail R C := by
  refine ⟨by rw [List.length_tail, h.1]; omega, fun row hrow => ?_⟩
  exact h.2 row (List.mem_of_mem_tail hrow)

theorem isRect_dropLast {m : Mat} {R C : ℕ} (h : IsRect m (R + 1) C) :
    IsRect m.dropLast R C := by
  refine ⟨by rw [List.length_dropLast, h.1]; omega, fun row hrow => ?_⟩
  rw [List.dropLast_eq_take] at hrow
  exact h.2 row (List.take_subset _ _ hrow)

theorem isRect_onesLike {m : Mat} {R C : ℕ} (h : IsRect m R C) :
    IsRect (onesLike m) R C := by
  refine ⟨by simp [onesLike, h.1], fun row hrow => ?_⟩
  obtain ⟨r0, hr0, rfl⟩ := List.mem_map.mp hrow
  simp [h.2 r0 hr0]

/- Transpose infrastructure. -/

theorem column_length (m : Mat) (t : ℕ) : (column m t).length = m.length := by
  simp [column]

theorem swapaxes_length (m : Mat) : (swapaxes m).length = rowLen m := by
  simp [swapaxes]

theorem rowLen_eq {m : Mat} {R C : ℕ} (h : IsRect m R C) (hR : 1 ≤ R) : rowLen m = C := by
  unfold rowLen
  cases m with
  | nil =>
    have := h.1
    simp at this
    omega
  | cons a t => exact h.2 a (by simp)

theorem swapaxes_getD (m : Mat) (t : ℕ) (h : t < rowLen m) :
    (swapaxes m).getD t [] = column m t := by
  unfold swapaxes
  rw [getD_map _ _ t [] 0 (by simpa using h), getD_range (rowLen m) t 0 h]

theorem isRect_swapaxes {m : Mat} {R C : ℕ} (h : IsRect m R C) (hR : 1 ≤ R) :
    IsRect (swapaxes m) C R := by
  refine isRect_of_getD _ _ _ (by rw [swapaxes_length, rowLen_eq h hR]) (fun b hb => ?_)
  rw [swapaxes_getD m b (by rw [rowLen_eq h hR]; exact hb), column_length, h.1]

theorem column_swapaxes {m : Mat} {R C : ℕ} (h : IsRect m R C) (hR : 1 ≤ R)
    (t : ℕ) (ht : t < R) : column (swapaxes m) t = m.getD t [] := by
  have hrl : rowLen m = C := rowLen_eq h hR
  unfold column swapaxes
  rw [List.map_map, hrl]
  have hpt : ∀ j ∈ List.range C,
      ((fun row => row.getD t 0) ∘ fun t' => column m t') j = (m.getD t []).getD j 0 := by
    intro j _
    simp only [Function.comp, column]
    exact getD_map _ m t 0 [] (by rw [h.1]; exact ht)
  rw [mapCongr _ _ _ hpt]
  have hrow : (m.getD t []).length = C := isRect_row h t ht
  rw [← hrow]
  exact rangeMap_getD (m.getD t []) 0

theorem swapaxes_swapaxes {m : Mat} {R C : ℕ} (h : IsRect m R C) (hR : 1 ≤ R)
    (hC : 1 ≤ C) : swapaxes (swapaxes m) = m := by
  have h2 : IsRect (swapaxes m) C R := isRect_swapaxes h hR
  have hrl2 : rowLen (swapaxes m) = R := rowLen_eq h2 hC
  apply List.ext_get
  · rw [swapaxes_length, hrl2, h.1]
  · intro n h1 h2'
    rw [← getD_eq_get _ _ [] h1, ← getD_eq_get _ _ [] h2']
    have hn : n < R := by
      rw [swapaxes_length, hrl2] at h1
      exact h1
    rw [swapaxes_getD _ n (by rw [hrl2]; exact hn)]
    exact column_swapaxes h hR n hn

theorem rowLen_swapaxes {m : Mat} {R C : ℕ} (h : IsRect m R C) (hR : 1 ≤ R)
    (hC : 1 ≤ C) : rowLen (swapaxes m) = R :=
  rowLen_eq (isRect_swapaxes h hR) hC

/- Reverse-scan infrastructure. -/

theorem scanBack_snd_length {α β : Type} (f : α → β → β) (xs : List α) (acc : β) :
    (scanBack f xs acc).2.length = xs.length := by
  induction xs with
  | nil => rfl
  | cons x t ih => simp [scanBack, ih]

theorem scanBack_snd_head {α β : Type} (f : α → β → β) (xs : List α) (acc : β) (d : β)
    (h : xs ≠ []) : (scanBack f xs acc).2.getD 0 d = (scanBack f xs acc).1 := by
  cases xs with
  | nil => exact absurd rfl h
  | cons x t => rfl

theorem scanBack_getD_succ {α β : Type} (f : α → β → β) (xs : List α) (acc : β)
    (t : ℕ) (d : β) (dx : α) (h : t + 1 < xs.length) :
    (scanBack f xs acc).2.getD t d
      = f (xs.getD t dx) ((scanBack f xs acc).2.getD (t + 1) d) := by
  induction xs generalizing t with
  | nil => simp at h
  | cons x xt ih =>
    cases t with
    | zero =>
      have hxt : xt ≠ [] := by
        intro e
        subst e
        simp at h
      show f x (scanBack f xt acc).1 = f x ((scanBack f xt acc).2.getD 0 d)
      rw [scanBack_snd_head f xt acc d hxt]
    | succ j =>
      show (scanBack f xt acc).2.getD j d
        = f (xt.getD j dx) ((scanBack f xt acc).2.getD (j + 1) d)
      exact ih j (by simpa using h)

theorem scanBack_getD_last {α β : Type} (f : α → β → β) (xs : List α) (acc : β)
    (t : ℕ) (d : β) (dx : α) (h : xs.length = t + 1) :
    (scanBack f xs acc).2.getD t d = f (xs.getD t dx) acc := by
  induction xs generalizing t with
  | nil => simp at h
  | cons x xt ih =>
    cases t with
    | zero =>
      have : xt = [] := List.length_eq_zero.mp (by simpa using h)
      subst this
      rfl
    | succ j =>
      show (scanBack f xt acc).2.getD j d = f (xt.getD j dx) acc
      exact ih j (by simpa using h)

theorem scanBack_vec_shape {α : Type} (f : α → Vec → Vec) (xs : List α) (acc : Vec)
    (B : ℕ) (hf : ∀ x ∈ xs, ∀ v : Vec, v.length = B → (f x v).length = B)
    (hacc : acc.length = B) :
    (scanBack f xs acc).1.length = B ∧ ∀ row ∈ (scanBack f xs acc).2, row.length = B := by
  induction xs with
  | nil => exact ⟨hacc, by simp [scanBack]⟩
  | cons x t ih =>
    obtain ⟨h1, h2⟩ := ih (fun y hy => hf y (List.mem_cons_of_mem x hy))
    have hx : (f x (scanBack f t acc).1).length = B := hf x (by simp) _ h1
    refine ⟨hx, fun row hrow => ?_⟩
    rcases (by simpa [scanBack] using hrow :
        row = f x (scanBack f t acc).1 ∨ row ∈ (scanBack f t acc).2) with e | hr
    · rw [e]; exact hx
    · exact h2 row hr

/- Zip infrastructure. -/

theorem zip3_length {α β γ : Type} :
    ∀ (a : List α) (b : List β) (c : List γ),
      (zip3 a b c).length = min a.length (min b.length c.length)
  | [], _, _ => by simp [zip3]
  | _ :: _, [], _ => by simp [zip3]
  | _ :: _, _ :: _, [] => by simp [zip3]
  | x :: a, y :: b, z :: c => by
    simp only [zip3, List.length_cons, zip3_length a b c]
    omega

theorem zip3_getD {α β γ : Type} :
    ∀ (a : List α) (b : List β) (c : List γ) (t : ℕ) (da : α) (db : β) (dc : γ),
      t < a.length → t < b.length → t < c.length →
      (zip3 a b c).getD t (da, db, dc) = (a.getD t da, b.getD t db, c.getD t dc)
  | [], _, _, t, _, _, _ => by intro ha _ _; simp at ha
  | _ :: _, [], _, t, _, _, _ => by intro _ hb _; simp at hb
  | _ :: _, _ :: _, [], t, _, _, _ => by intro _ _ hc; simp at hc
  | x :: a, y :: b, z :: c, 0, da, db, dc => by intro _ _ _; rfl
  | x :: a, y :: b, z :: c, t + 1, da, db, dc => by
    intro ha hb hc
    show (zip3 a b c).getD t (da, db, dc) = (a.getD t da, b.getD t db, c.getD t dc)
    exact zip3_getD a b c t da db dc (by simpa using ha) (by simpa using hb)
      (by simpa using hc)

theorem zip3_mem {α β γ : Type} :
    ∀ (a : List α) (b : List β) (c : List γ) (x : α × β × γ),
      x ∈ zip3 a b c → x.1 ∈ a ∧ x.2.1 ∈ b ∧ x.2.2 ∈ c
  | [], _, _, x => by intro h; simp [zip3] at h
  | _ :: _, [], _, x => by intro h; simp [zip3] at h
  | _ :: _, _ :: _, [], x => by intro h; simp [zip3] at h
  | p :: a, q :: b, r :: c, x => by
    intro h
    rcases (by simpa [zip3] using h : x = (p, q, r) ∨ x ∈ zip3 a b c) with e | hm
    · subst e; exact ⟨by simp, by simp, by simp⟩
    · obtain ⟨h1, h2, h3⟩ := zip3_mem a b c x hm
      exact ⟨List.mem_cons_of_mem p h1, List.mem_cons_of_mem q h2,
        List.mem_cons_of_mem r h3⟩

theorem zip5_length {α β γ δ ε : Type} :
    ∀ (a : List α) (b : List β) (c : List γ) (d : List δ) (e : List ε),
      (zip5 a b c d e).length
        = min a.length (min b.length (min c.length (min d.length e.length)))
  | [], _, _, _, _ => by simp [zip5]
  | _ :: _, [], _, _, _ => by simp [zip5]
  | _ :: _, _ :: _, [], _, _ => by simp [zip5]
  | _ :: _, _ :: _, _ :: _, [], _ => by simp [zip5]
  | _ :: _, _ :: _, _ :: _, _ :: _, [] => by simp [zip5]
  | x :: a, y :: b, z :: c, w :: d, u :: e => by
    simp only [zip5, List.length_cons, zip5_length a b c d e]
    omega

theorem zip5_getD {α β γ δ ε : Type} :
    ∀ (a : List α) (b : List β) (c : List γ) (d : List δ) (e : List ε) (t : ℕ)
      (da : α) (db : β) (dc : γ) (dd : δ) (de : ε),
      t < a.length → t < b.length → t < c.length → t < d.length → t < e.length →
      (zip5 a b c d e).getD t (da, db, dc, dd, de)
        = (a.getD t da, b.getD t db, c.getD t dc, d.getD t dd, e.getD t de)
  | [], _, _, _, _, t, _, _, _, _, _ => by intro ha _ _ _ _; simp at ha
  | _ :: _, [], _, _, _, t, _, _, _, _, _ => by intro _ hb _ _ _; simp at hb
  | _ :: _, _ :: _, [], _, _, t, _, _, _, _, _ => by intro _ _ hc _ _; simp at hc
  | _ :: _, _ :: _, _ :: _, [], _, t, _, _, _, _, _ => by intro _ _ _ hd _; simp at hd
  | _ :: _, _ :: _, _ :: _, _ :: _, [], t, _, _, _, _, _ => by
    intro _ _ _ _ he; simp at he
  | x :: a, y :: b, z :: c, w :: d, u :: e, 0, da, db, dc, dd, de => by
    intro _ _ _ _ _; rfl
  | x :: a, y :: b, z :: c, w :: d, u :: e, t + 1, da, db, dc, dd, de => by
    intro ha hb hc hd he
    show (zip5 a b c d e).getD t (da, db, dc, dd, de)
      = (a.getD t da, b.getD t db, c.getD t dc, d.getD t dd, e.getD t de)
    exact zip5_getD a b c d e t da db dc dd de (by simpa using ha) (by simpa using hb)
      (by simpa using hc) (by simpa using hd) (by simpa using he)

theorem zip5_mem {α β γ δ ε : Type} :
    ∀ (a : List α) (b : List β) (c : List γ) (d : List δ) (e : List ε)
      (x : α × β × γ × δ × ε),
      x ∈ zip5 a b c d e →
        x.1 ∈ a ∧ x.2.1 ∈ b ∧ x.2.2.1 ∈ c ∧ x.2.2.2.1 ∈ d ∧ x.2.2.2.2 ∈ e
  | [], _, _, _, _, x => by intro h; simp [zip5] at h
  | _ :: _, [], _, _, _, x => by intro h; simp [zip5] at h
  | _ :: _, _ :: _, [], _, _, x => by intro h; simp [zip5] at h
  | _ :: _, _ :: _, _ :: _, [], _, x => by intro h; simp [zip5] at h
  | _ :: _, _ :: _, _ :: _, _ :: _, [], x => by intro h; simp [zip5] at h
  | p :: a, q :: b, r :: c, s :: d, v :: e, x => by
    intro h
    rcases (by simpa [zip5] using h : x = (p, q, r, s, v) ∨ x ∈ zip5 a b c d e) with
      e' | hm
    · subst e'; exact ⟨by simp, by simp, by simp, by simp, by simp⟩
    · obtain ⟨h1, h2, h3, h4, h5⟩ := zip5_mem a b c d e x hm
      exact ⟨List.mem_cons_of_mem p h1, List.mem_cons_of_mem q h2,
        List.mem_cons_of_mem r h3, List.mem_cons_of_mem s h4,
        List.mem_cons_of_mem v h5⟩

/- Broadcast infrastructure. -/

theorem isRect_broadcastLambda {lambda_ : LambdaArg} {d : Mat} {K B : ℕ}
    (hd : IsRect d K B) (hl : lambda_.Rect K B) :
    IsRect (broadcastLambda lambda_ d) K B := by
  cases lambda_ with
  | scalar c =>
    refine ⟨by simp [broadcastLambda, onesLike, hd.1], fun row hrow => ?_⟩
    simp only [broadcastLambda, onesLike, List.map_map] at hrow
    obtain ⟨r0, hr0, rfl⟩ := List.mem_map.mp hrow
    simp [hd.2 r0 hr0]
  | array a =>
    exact isRect_matZip vMul vMul_length (onesLike d) a K B (isRect_onesLike hd) hl

theorem broadcastLambda_getD {lambda_ : LambdaArg} {d : Mat} {K B : ℕ}
    (hd : IsRect d K B) (hl : lambda_.Rect K B) (t : ℕ) (ht : t < K) :
    (broadcastLambda lambda_ d).getD t [] = lambda_.colAt B t := by
  cases lambda_ with
  | scalar c =>
    simp only [broadcastLambda, onesLike, List.map_map, LambdaArg.colAt]
    rw [getD_map _ d t [] [] (by rw [hd.1]; exact ht)]
    have hc : ((fun row => row.map fun x => x * c) ∘ fun row : Vec => row.map fun _ => (1 : ℚ))
        (d.getD t []) = (d.getD t []).map (fun _ => 1 * c) := by
      simp only [Function.comp, List.map_map]
      rfl
    rw [hc, map_const_eq_replicate, isRect_row hd t ht, one_mul]
  | array a =>
    simp only [broadcastLambda, LambdaArg.colAt, matMul]
    rw [getD_zipWith vMul _ _ t [] [] []
      (by simp only [onesLike, List.length_map, hd.1]; exact ht)
      (by rw [hl.1]; exact ht)]
    have ho : (onesLike d).getD t [] = List.replicate B 1 := by
      simp only [onesLike]
      rw [getD_map _ d t [] [] (by rw [hd.1]; exact ht), map_const_eq_replicate,
        isRect_row hd t ht]
    rw [ho]
    exact vMul_one_left (a.getD t []) B (isRect_row hl t ht)

/- GAE helper lemmas, all stated for batch-major inputs of batch size `B`
with `K` reward steps and `K + 1` value steps. -/

theorem gaeDelta_rect {r d v : Mat} {B K : ℕ} (hr : IsRect r B K) (hd : IsRect d B K)
    (hv : IsRect v B (K + 1)) (hB : 1 ≤ B) :
    IsRect (gaeDelta (swapaxes r) (swapaxes d) (swapaxes v)) K B := by
  have hr' := isRect_swapaxes hr hB
  have hd' := isRect_swapaxes hd hB
  have hv' := isRect_swapaxes hv hB
  exact isRect_matSub
    (isRect_matAdd hr' (isRect_matMul hd' (isRect_tail hv')))
    (isRect_dropLast hv')

theorem matAdd_getD (x y : Mat) (t : ℕ) (hx : t < x.length) (hy : t < y.length) :
    (matAdd x y).getD t [] = vAdd (x.getD t []) (y.getD t []) := by
  unfold matAdd
  exact getD_zipWith vAdd x y t [] [] [] hx hy

theorem matSub_getD (x y : Mat) (t : ℕ) (hx : t < x.length) (hy : t < y.length) :
    (matSub x y).getD t [] = vSub (x.getD t []) (y.getD t []) := by
  unfold matSub
  exact getD_zipWith vSub x y t [] [] [] hx hy

theorem matMul_getD (x y : Mat) (t : ℕ) (hx : t < x.length) (hy : t < y.length) :
    (matMul x y).getD t [] = vMul (x.getD t []) (y.getD t []) := by
  unfold matMul
  exact getD_zipWith vMul x y t [] [] [] hx hy

theorem gaeDelta_getD {r d v : Mat} {B K : ℕ} (hr : IsRect r B K) (hd : IsRect d B K)
    (hv : IsRect v B (K + 1)) (hB : 1 ≤ B) (t : ℕ) (ht : t < K) :
    (gaeDelta (swapaxes r) (swapaxes d) (swapaxes v)).getD t []
      = vSub (vAdd (column r t) (vMul (column d t) (column v (t + 1)))) (column v t) := by
  have hr' := isRect_swapaxes hr hB
  have hd' := isRect_swapaxes hd hB
  have hv' := isRect_swapaxes hv hB
  have hlen1 : t < (matAdd (swapaxes r) (matMul (swapaxes d) (swapaxes v).tail)).length := by
    rw [(isRect_matAdd hr' (isRect_matMul hd' (isRect_tail hv'))).1]; exact ht
  have hlen2 : t < (swapaxes v).dropLast.length := by
    rw [(isRect_dropLast hv').1]; exact ht
  unfold gaeDelta
  rw [matSub_getD _ _ t hlen1 hlen2]
  rw [matAdd_getD _ _ t (by rw [hr'.1]; exact ht)
    (by rw [(isRect_matMul hd' (isRect_tail hv')).1]; exact ht)]
  rw [matMul_getD _ _ t (by rw [hd'.1]; exact ht)
    (by rw [(isRect_tail hv').1]; exact ht)]
  rw [getD_tail, getD_dropLast _ _ _ (by rw [hv'.1]; omega)]
  rw [swapaxes_getD r t (by rw [rowLen_eq hr hB]; exact ht)]
  rw [swapaxes_getD d t (by rw [rowLen_eq hd hB]; exact ht)]
  rw [swapaxes_getD v (t + 1) (by rw [rowLen_eq hv hB]; omega)]
  rw [swapaxes_getD v t (by rw [rowLen_eq hv hB]; omega)]

theorem gaeA_rect {r d v : Mat} {lambda_ : LambdaArg} {B K : ℕ}
    (hr : IsRect r B K) (hd : IsRect d B K) (hv : IsRect v B (K + 1))
    (hl : lambda_.Rect K B) (hB : 1 ≤ B) :
    IsRect (gaeCore (swapaxes r) (swapaxes d) lambda_ (swapaxes v) B).1 K B := by
  have hd' := isRect_swapaxes hd hB
  have hδ := gaeDelta_rect hr hd hv hB
  have hlam := isRect_broadcastLambda hd' hl
  have hxs : (zip3 (gaeDelta (swapaxes r) (swapaxes d) (swapaxes v)) (swapaxes d)
      (broadcastLambda lambda_ (swapaxes d))).length = K := by
    rw [zip3_length, hδ.1, hd'.1, hlam.1, min_self, min_self]
  have hbody : ∀ x ∈ zip3 (gaeDelta (swapaxes r) (swapaxes d) (swapaxes v)) (swapaxes d)
      (broadcastLambda lambda_ (swapaxes d)), ∀ w : Vec, w.length = B →
      (gaeBody x w).length = B := by
    intro x hx w hw
    obtain ⟨h1, h2, h3⟩ := zip3_mem _ _ _ x hx
    have e1 := hδ.2 _ h1
    have e2 := hd'.2 _ h2
    have e3 := hlam.2 _ h3
    simp only [gaeBody, vAdd_length, vMul_length, e1, e2, e3, hw, min_self]
  refine ⟨?_, (scanBack_vec_shape gaeBody _ _ B hbody (by simp)).2⟩
  show (scanBack gaeBody _ _).2.length = K
  rw [scanBack_snd_length, hxs]

theorem gaeT_rect {r d v : Mat} {lambda_ : LambdaArg} {B K : ℕ}
    (hr : IsRect r B K) (hd : IsRect d B K) (hv : IsRect v B (K + 1))
    (hl : lambda_.Rect K B) (hB : 1 ≤ B) :
    IsRect (gaeCore (swapaxes r) (swapaxes d) lambda_ (swapaxes v) B).2 K B :=
  isRect_matAdd (isRect_dropLast (isRect_swapaxes hv hB)) (gaeA_rect hr hd hv hl hB)

theorem gaeA_getD {r d v : Mat} {lambda_ : LambdaArg} {B K : ℕ}
    (hr : IsRect r B K) (hd : IsRect d B K) (hv : IsRect v B (K + 1))
    (hl : lambda_.Rect K B) (hB : 1 ≤ B) (t : ℕ) (ht : t < K) :
    (gaeCore (swapaxes r) (swapaxes d) lambda_ (swapaxes v) B).1.getD t []
      = vAdd ((gaeDelta (swapaxes r) (swapaxes d) (swapaxes v)).getD t [])
          (vMul (vMul (column d t) (lambda_.colAt B t))
            (if t + 1 < K
              then (gaeCore (swapaxes r) (swapaxes d) lambda_ (swapaxes v) B).1.getD (t + 1) []
              else List.replicate B 0)) := by
  have hd' := isRect_swapaxes hd hB
  have hδ := gaeDelta_rect hr hd hv hB
  have hlam := isRect_broadcastLambda hd' hl
  have hxs : (zip3 (gaeDelta (swapaxes r) (swapaxes d) (swapaxes v)) (swapaxes d)
      (broadcastLambda lambda_ (swapaxes d))).length = K := by
    rw [zip3_length, hδ.1, hd'.1, hlam.1, min_self, min_self]
  have hzip : (zip3 (gaeDelta (swapaxes r) (swapaxes d) (swapaxes v)) (swapaxes d)
        (broadcastLambda lambda_ (swapaxes d))).getD t ([], [], [])
      = ((gaeDelta (swapaxes r) (swapaxes d) (swapaxes v)).getD t [], column d t,
          lambda_.colAt B t) := by
    rw [zip3_getD _ _ _ t [] [] [] (by rw [hδ.1]; exact ht) (by rw [hd'.1]; exact ht)
      (by rw [hlam.1]; exact ht)]
    rw [swapaxes_getD d t (by rw [rowLen_eq hd hB]; exact ht)]
    rw [broadcastLambda_getD hd' hl t ht]
  by_cases hsucc : t + 1 < K
  · rw [if_pos hsucc]
    show (scanBack gaeBody _ _).2.getD t [] = _
    rw [scanBack_getD_succ gaeBody _ _ t [] ([], [], []) (by rw [hxs]; exact hsucc), hzip]
    rfl
  · rw [if_neg hsucc]
    show (scanBack gaeBody _ _).2.getD t [] = _
    rw [scanBack_getD_last gaeBody _ _ t [] ([], [], []) (by rw [hxs]; omega), hzip]
    rfl

theorem gae_out (r d : Mat) (lambda_ : LambdaArg) (v : Mat) (s : Bool) :
    batch_truncated_generalized_advantage_estimation r d lambda_ v s false
      = (swapaxes (gaeCore (swapaxes r) (swapaxes d) lambda_ (swapaxes v) r.length).1,
          swapaxes (gaeCore (swapaxes r) (swapaxes d) lambda_ (swapaxes v) r.length).2) := by
  cases s <;> rfl

theorem gae_out_true (r' d' : Mat) (lambda_ : LambdaArg) (v' : Mat) (s : Bool) :
    batch_truncated_generalized_advantage_estimation r' d' lambda_ v' s true
      = ((gaeCore r' d' lambda_ v' (rowLen r')).1, (gaeCore r' d' lambda_ v' (rowLen r')).2) := by
  cases s <;> rfl

theorem gaeT_getD {r d v : Mat} {lambda_ : LambdaArg} {B K : ℕ}
    (hr : IsRect r B K) (hd : IsRect d B K) (hv : IsRect v B (K + 1))
    (hl : lambda_.Rect K B) (hB : 1 ≤ B) (t : ℕ) (ht : t < K) :
    (gaeCore (swapaxes r) (swapaxes d) lambda_ (swapaxes v) B).2.getD t []
      = vAdd (column v t)
          ((gaeCore (swapaxes r) (swapaxes d) lambda_ (swapaxes v) B).1.getD t []) := by
  have hv' := isRect_swapaxes hv hB
  show (matAdd (swapaxes v).dropLast
      (gaeCore (swapaxes r) (swapaxes d) lambda_ (swapaxes v) B).1).getD t [] = _
  rw [matAdd_getD _ _ t (by rw [(isRect_dropLast hv').1]; exact ht)
    (by rw [(gaeA_rect hr hd hv hl hB).1]; exact ht)]
  rw [getD_dropLast _ _ _ (by rw [hv'.1]; omega)]
  rw [swapaxes_getD v t (by rw [rowLen_eq hv hB]; omega)]

theorem gae_column_adv {r d v : Mat} {lambda_ : LambdaArg} {B K : ℕ}
    (hr : IsRect r B K) (hd : IsRect d B K) (hv : IsRect v B (K + 1))
    (hl : lambda_.Rect K B) (hB : 1 ≤ B) (s : Bool) (t : ℕ) (ht : t < K) :
    column (batch_truncated_generalized_advantage_estimation r d lambda_ v s false).1 t
      = (gaeCore (swapaxes r) (swapaxes d) lambda_ (swapaxes v) B).1.getD t [] := by
  rw [gae_out r d lambda_ v s, hr.1]
  exact column_swapaxes (gaeA_rect hr hd hv hl hB) (by omega) t ht

theorem gae_column_tgt {r d v : Mat} {lambda_ : LambdaArg} {B K : ℕ}
    (hr : IsRect r B K) (hd : IsRect d B K) (hv : IsRect v B (K + 1))
    (hl : lambda_.Rect K B) (hB : 1 ≤ B) (s : Bool) (t : ℕ) (ht : t < K) :
    column (batch_truncated_generalized_advantage_estimation r d lambda_ v s false).2 t
      = (gaeCore (swapaxes r) (swapaxes d) lambda_ (swapaxes v) B).2.getD t [] := by
  rw [gae_out r d lambda_ v s, hr.1]
  exact column_swapaxes (gaeT_rect hr hd hv hl hB) (by omega) t ht

/-- C2: for rewards `r[1..K]`, discounts `d[1..K]`, values `v[0..K]` (one
longer along time) and a scalar-or-per-step lambda,
`batch_truncated_generalized_advantage_estimation` computes the residuals
`delta_t = r_t + d_t*v_(t+1) - v_t`, accumulates them backward as
`A_t = delta_t + d_t*lambda_t*A_(t+1)` with `A_K = 0` (the recursion starts
from the end with no carried value), and returns target values satisfying
`target_t = v_t + advantage_t` for every `t`, exactly.  Stated per time
column of the batch-major inputs. -/
theorem gae_recursion_and_target (r d v : Mat) (lambda_ : LambdaArg) (s : Bool)
    (B K : ℕ) (hr : IsRect r B K) (hd : IsRect d B K) (hv : IsRect v B (K + 1))
    (hl : lambda_.Rect K B) (hB : 1 ≤ B) (t : ℕ) (ht : t < K) :
    column (batch_truncated_generalized_advantage_estimation r d lambda_ v s false).1 t
      = vAdd (vSub (vAdd (column r t) (vMul (column d t) (column v (t + 1)))) (column v t))
          (vMul (vMul (column d t) (lambda_.colAt B t))
            (if t + 1 < K
              then column
                (batch_truncated_generalized_advantage_estimation r d lambda_ v s false).1
                (t + 1)
              else List.replicate B 0))
    ∧ column (batch_truncated_generalized_advantage_estimation r d lambda_ v s false).2 t
      = vAdd (column v t)
          (column (batch_truncated_generalized_advantage_estimation r d lambda_ v s false).1
            t) := by
  constructor
  · rw [gae_column_adv hr hd hv hl hB s t ht, gaeA_getD hr hd hv hl hB t ht,
      gaeDelta_getD hr hd hv hB t ht]
    by_cases hsucc : t + 1 < K
    · rw [if_pos hsucc, if_pos hsucc, gae_column_adv hr hd hv hl hB s (t + 1) hsucc]
    · rw [if_neg hsucc, if_neg hsucc]
  · rw [gae_column_tgt hr hd hv hl hB s t ht, gae_column_adv hr hd hv hl hB s t ht,
      gaeT_getD hr hd hv hl hB t ht]

/-- Witness for C2 at a concrete input: batch size 1, two steps,
`r = [[1,2]]`, `d = [[1/2,1/2]]`, `v = [[1,2,3]]`, `lambda = 1/2`, `t = 0`. -/
theorem gae_recursion_and_target_witness :
    column (batch_truncated_generalized_advantage_estimation [[1, 2]] [[1/2, 1/2]]
        (.scalar (1/2)) [[1, 2, 3]] true false).1 0
      = vAdd (vSub (vAdd (column [[1, 2]] 0)
            (vMul (column [[1/2, 1/2]] 0) (column [[1, 2, 3]] (0 + 1))))
          (column [[1, 2, 3]] 0))
          (vMul (vMul (column [[1/2, 1/2]] 0) (LambdaArg.colAt (.scalar (1/2)) 1 0))
            (if 0 + 1 < 2
              then column (batch_truncated_generalized_advantage_estimation [[1, 2]]
                [[1/2, 1/2]] (.scalar (1/2)) [[1, 2, 3]] true false).1 (0 + 1)
              else List.replicate 1 0))
    ∧ column (batch_truncated_generalized_advantage_estimation [[1, 2]] [[1/2, 1/2]]
        (.scalar (1/2)) [[1, 2, 3]] true false).2 0
      = vAdd (column [[1, 2, 3]] 0)
          (column (batch_truncated_generalized_advantage_estimation [[1, 2]] [[1/2, 1/2]]
            (.scalar (1/2)) [[1, 2, 3]] true false).1 0) :=
  gae_recursion_and_target [[1, 2]] [[1/2, 1/2]] [[1, 2, 3]] (.scalar (1/2)) true 1 2
    (by decide) (by decide) (by decide)
    (show LambdaArg.Rect (.scalar (1/2)) 2 1 from trivial) (by decide) 0 (by decide)

/-- C7: for every reward/discount/value input, the advantages returned by
`batch_truncated_generalized_advantage_estimation` with `lambda = 0` equal
the one-step TD residuals `r_t + d_t*v_(t+1) - v_t` at every time step. -/
theorem gae_lambda_zero_td (r d v : Mat) (s : Bool) (B K : ℕ)
    (hr : IsRect r B K) (hd : IsRect d B K) (hv : IsRect v B (K + 1))
    (hB : 1 ≤ B) (t : ℕ) (ht : t < K) :
    column (batch_truncated_generalized_advantage_estimation r d (.scalar 0) v s false).1 t
      = vSub (vAdd (column r t) (vMul (column d t) (column v (t + 1)))) (column v t) := by
  have hl0 : LambdaArg.Rect (.scalar 0) K B := trivial
  rw [gae_column_adv hr hd hv hl0 hB s t ht, gaeA_getD hr hd hv hl0 hB t ht,
    gaeDelta_getD hr hd hv hB t ht]
  have hcol : LambdaArg.colAt (.scalar 0) B t = List.replicate B 0 := rfl
  rw [hcol, vMul_zero_right (column d t) B (by rw [column_length, hd.1])]
  have hXlen : (if t + 1 < K
      then (gaeCore (swapaxes r) (swapaxes d) (.scalar 0) (swapaxes v) B).1.getD (t + 1) []
      else List.replicate B 0).length = B := by
    split
    · exact isRect_row (gaeA_rect hr hd hv hl0 hB) (t + 1) (by omega)
    · simp
  rw [vMul_zero_left _ B hXlen]
  refine vAdd_zero_right _ B ?_
  simp only [vSub_length, vAdd_length, vMul_length, column_length, hr.1, hd.1, hv.1,
    min_self]

/-- Witness for C7 at a concrete input: `r = [[1,2]]`, `d = [[1/2,1/2]]`,
`v = [[1,2,3]]`, `t = 1`. -/
theorem gae_lambda_zero_td_witness :
    column (batch_truncated_generalized_advantage_estimation [[1, 2]] [[1/2, 1/2]]
        (.scalar 0) [[1, 2, 3]] true false).1 1
      = vSub (vAdd (column [[1, 2]] 1)
          (vMul (column [[1/2, 1/2]] 1) (column [[1, 2, 3]] (1 + 1))))
        (column [[1, 2, 3]] 1) :=
  gae_lambda_zero_td [[1, 2]] [[1/2, 1/2]] [[1, 2, 3]] true 1 2
    (by decide) (by decide) (by decide) (by decide) 1 (by decide)

/-- C8: for every trajectory, every lambda and every gradient-stop setting,
calling `batch_truncated_generalized_advantage_estimation` with
`time_major = true` on the transposed (time-leading) input yields exactly
the transpose of the result of calling it with `time_major = false` on the
original batch-leading input.  (The mixing parameter is the very same
argument in both calls: the function never reorients `lambda_`, so a
per-step array is time-major in either layout.) -/
theorem gae_layout_invariance (r d v : Mat) (lambda_ : LambdaArg) (s : Bool)
    (B K : ℕ) (hr : IsRect r B K) (hd : IsRect d B K) (hv : IsRect v B (K + 1))
    (hl : lambda_.Rect K B) (hB : 1 ≤ B) (hK : 1 ≤ K) :
    batch_truncated_generalized_advantage_estimation (swapaxes r) (swapaxes d) lambda_
        (swapaxes v) s true
      = (swapaxes (batch_truncated_generalized_advantage_estimation r d lambda_ v s
            false).1,
          swapaxes (batch_truncated_generalized_advantage_estimation r d lambda_ v s
            false).2) := by
  have hA := gaeA_rect hr hd hv hl hB
  have hT := gaeT_rect hr hd hv hl hB
  have hout := gae_out r d lambda_ v s
  rw [hr.1] at hout
  rw [hout]
  show batch_truncated_generalized_advantage_estimation (swapaxes r) (swapaxes d) lambda_
      (swapaxes v) s true
    = (swapaxes (swapaxes (gaeCore (swapaxes r) (swapaxes d) lambda_ (swapaxes v) B).1),
        swapaxes (swapaxes (gaeCore (swapaxes r) (swapaxes d) lambda_ (swapaxes v) B).2))
  rw [swapaxes_swapaxes hA hK hB, swapaxes_swapaxes hT hK hB]
  rw [gae_out_true (swapaxes r) (swapaxes d) lambda_ (swapaxes v) s]
  rw [rowLen_swapaxes hr hB hK]

/-- Witness for C8 at a concrete input: `r = [[1,2]]`, `d = [[1/2,1/2]]`,
`v = [[1,2,3]]`, `lambda = 1/3`, `s = false`. -/
theorem gae_layout_invariance_witness :
    batch_truncated_generalized_advantage_estimation (swapaxes [[1, 2]])
        (swapaxes [[1/2, 1/2]]) (.scalar (1/3)) (swapaxes [[1, 2, 3]]) false true
      = (swapaxes (batch_truncated_generalized_advantage_estimation [[1, 2]] [[1/2, 1/2]]
            (.scalar (1/3)) [[1, 2, 3]] false false).1,
          swapaxes (batch_truncated_generalized_advantage_estimation [[1, 2]] [[1/2, 1/2]]
            (.scalar (1/3)) [[1, 2, 3]] false false).2) :=
  gae_layout_invariance [[1, 2]] [[1/2, 1/2]] [[1, 2, 3]] (.scalar (1/3)) false 1 2
    (by decide) (by decide) (by decide)
    (show LambdaArg.Rect (.scalar (1/3)) 2 1 from trivial) (by decide) (by decide)

/- Off-policy generalized-return helper lemmas: `q, c` are batch-major
`B × K`, `r, d, v` are batch-major `B × (K+1)`. -/

theorem op_g_eq {r d v : Mat} {B K : ℕ} (hr : IsRect r B (K + 1)) (hd : IsRect d B (K + 1))
    (hv : IsRect v B (K + 1)) (hB : 1 ≤ B) :
    vAdd ((swapaxes r).getLastD [])
        (vMul ((swapaxes d).getLastD []) ((swapaxes v).getLastD []))
      = vAdd (column r K) (vMul (column d K) (column v K)) := by
  have hr' := isRect_swapaxes hr hB
  have hd' := isRect_swapaxes hd hB
  have hv' := isRect_swapaxes hv hB
  have er : (swapaxes r).getLastD [] = column r K := by
    rw [getLastD_eq_getD _ [] (by intro e; rw [e] at hr'; have := hr'.1; simp at this),
      hr'.1]
    exact swapaxes_getD r K (by rw [rowLen_eq hr hB]; omega)
  have ed : (swapaxes d).getLastD [] = column d K := by
    rw [getLastD_eq_getD _ [] (by intro e; rw [e] at hd'; have := hd'.1; simp at this),
      hd'.1]
    exact swapaxes_getD d K (by rw [rowLen_eq hd hB]; omega)
  have ev : (swapaxes v).getLastD [] = column v K := by
    rw [getLastD_eq_getD _ [] (by intro e; rw [e] at hv'; have := hv'.1; simp at this),
      hv'.1]
    exact swapaxes_getD v K (by rw [rowLen_eq hv hB]; omega)
  rw [er, ed, ev]

theorem op_xs_length {q v r d c : Mat} {B K : ℕ} (hq : IsRect q B K) (hc : IsRect c B K)
    (hr : IsRect r B (K + 1)) (hd : IsRect d B (K + 1)) (hv : IsRect v B (K + 1))
    (hB : 1 ≤ B) :
    (zip5 (swapaxes r).dropLast (swapaxes d).dropLast (swapaxes c)
      (swapaxes v).dropLast (swapaxes q)).length = K := by
  rw [zip5_length, (isRect_dropLast (isRect_swapaxes hr hB)).1,
    (isRect_dropLast (isRect_swapaxes hd hB)).1, (isRect_swapaxes hc hB).1,
    (isRect_dropLast (isRect_swapaxes hv hB)).1, (isRect_swapaxes hq hB).1]
  omega

theorem op_core_rect {q v r d c : Mat} {B K : ℕ} (hq : IsRect q B K) (hc : IsRect c B K)
    (hr : IsRect r B (K + 1)) (hd : IsRect d B (K + 1)) (hv : IsRect v B (K + 1))
    (hB : 1 ≤ B) :
    IsRect (offPolicyCore (swapaxes q) (swapaxes v) (swapaxes r) (swapaxes d)
      (swapaxes c)) (K + 1) B := by
  have hq' := isRect_swapaxes hq hB
  have hc' := isRect_swapaxes hc hB
  have hrd := isRect_dropLast (isRect_swapaxes hr hB)
  have hdd := isRect_dropLast (isRect_swapaxes hd hB)
  have hvd := isRect_dropLast (isRect_swapaxes hv hB)
  have hglen : (vAdd ((swapaxes r).getLastD [])
      (vMul ((swapaxes d).getLastD []) ((swapaxes v).getLastD []))).length = B := by
    rw [op_g_eq hr hd hv hB]
    simp only [vAdd_length, vMul_length, column_length, hr.1, hd.1, hv.1, min_self]
  have hbody : ∀ x ∈ zip5 (swapaxes r).dropLast (swapaxes d).dropLast (swapaxes c)
      (swapaxes v).dropLast (swapaxes q), ∀ w : Vec, w.length = B →
      (opBody x w).length = B := by
    intro x hx w hw
    obtain ⟨h1, h2, h3, h4, h5⟩ := zip5_mem _ _ _ _ _ x hx
    have e1 := hrd.2 _ h1
    have e2 := hdd.2 _ h2
    have e3 := hc'.2 _ h3
    have e4 := hvd.2 _ h4
    have e5 := hq'.2 _ h5
    simp only [opBody, vAdd_length, vMul_length, vSub_length, e1, e2, e3, e4, e5, hw,
      min_self]
  have hsh := scanBack_vec_shape opBody _ _ B hbody hglen
  constructor
  · show ((scanBack opBody _ _).2 ++ [_]).length = K + 1
    rw [List.length_append, scanBack_snd_length, op_xs_length hq hc hr hd hv hB]
    rfl
  · intro row hrow
    rcases List.mem_append.mp hrow with hm | hm
    · exact hsh.2 row hm
    · rw [List.mem_singleton.mp hm]; exact hglen

theorem op_core_getD_last {q v r d c : Mat} {B K : ℕ} (hq : IsRect q B K)
    (hc : IsRect c B K) (hr : IsRect r B (K + 1)) (hd : IsRect d B (K + 1))
    (hv : IsRect v B (K + 1)) (hB : 1 ≤ B) :
    (offPolicyCore (swapaxes q) (swapaxes v) (swapaxes r) (swapaxes d)
        (swapaxes c)).getD K []
      = vAdd (column r K) (vMul (column d K) (column v K)) := by
  show ((scanBack opBody _ _).2 ++ [_]).getD K [] = _
  rw [getD_append_ge _ _ K [] (by rw [scanBack_snd_length, op_xs_length hq hc hr hd hv hB]),
    scanBack_snd_length, op_xs_length hq hc hr hd hv hB]
  simpa using op_g_eq hr hd hv hB

theorem op_core_getD_lt {q v r d c : Mat} {B K : ℕ} (hq : IsRect q B K)
    (hc : IsRect c B K) (hr : IsRect r B (K + 1)) (hd : IsRect d B (K + 1))
    (hv : IsRect v B (K + 1)) (hB : 1 ≤ B) (t : ℕ) (ht : t < K) :
    (offPolicyCore (swapaxes q) (swapaxes v) (swapaxes r) (swapaxes d)
        (swapaxes c)).getD t []
      = vAdd (column r t) (vMul (column d t)
          (vAdd (vSub (column v t) (vMul (column c t) (column q t)))
            (vMul (column c t)
              ((offPolicyCore (swapaxes q) (swapaxes v) (swapaxes r) (swapaxes d)
                (swapaxes c)).getD (t + 1) [])))) := by
  have hq' := isRect_swapaxes hq hB
  have hc' := isRect_swapaxes hc hB
  have hr' := isRect_swapaxes hr hB
  have hd' := isRect_swapaxes hd hB
  have hv' := isRect_swapaxes hv hB
  have hxs := op_xs_length hq hc hr hd hv hB
  have hzip : (zip5 (swapaxes r).dropLast (swapaxes d).dropLast (swapaxes c)
        (swapaxes v).dropLast (swapaxes q)).getD t ([], [], [], [], [])
      = (column r t, column d t, column c t, column v t, column q t) := by
    rw [zip5_getD _ _ _ _ _ t [] [] [] [] []
      (by rw [(isRect_dropLast hr').1]; exact ht)
      (by rw [(isRect_dropLast hd').1]; exact ht)
      (by rw [hc'.1]; exact ht)
      (by rw [(isRect_dropLast hv').1]; exact ht)
      (by rw [hq'.1]; exact ht)]
    rw [getD_dropLast _ _ _ (by rw [hr'.1]; omega),
      getD_dropLast _ _ _ (by rw [hd'.1]; omega),
      getD_dropLast _ _ _ (by rw [hv'.1]; omega)]
    rw [swapaxes_getD r t (by rw [rowLen_eq hr hB]; omega),
      swapaxes_getD d t (by rw [rowLen_eq hd hB]; omega),
      swapaxes_getD c t (by rw [rowLen_eq hc hB]; exact ht),
      swapaxes_getD v t (by rw [rowLen_eq hv hB]; omega),
      swapaxes_getD q t (by rw [rowLen_eq hq hB]; exact ht)]
  by_cases hsucc : t + 1 < K
  · have e1 : (offPolicyCore (swapaxes q) (swapaxes v) (swapaxes r) (swapaxes d)
        (swapaxes c)).getD t []
        = (scanBack opBody (zip5 (swapaxes r).dropLast (swapaxes d).dropLast (swapaxes c)
            (swapaxes v).dropLast (swapaxes q))
            (vAdd ((swapaxes r).getLastD [])
              (vMul ((swapaxes d).getLastD []) ((swapaxes v).getLastD [])))).2.getD t []
          := by
      show ((scanBack opBody _ _).2 ++ [_]).getD t [] = _
      rw [getD_append_lt _ _ t [] (by rw [scanBack_snd_length, hxs]; exact ht)]
    have e2 : (offPolicyCore (swapaxes q) (swapaxes v) (swapaxes r) (swapaxes d)
        (swapaxes c)).getD (t + 1) []
        = (scanBack opBody (zip5 (swapaxes r).dropLast (swapaxes d).dropLast (swapaxes c)
            (swapaxes v).dropLast (swapaxes q))
            (vAdd ((swapaxes r).getLastD [])
              (vMul ((swapaxes d).getLastD []) ((swapaxes v).getLastD [])))).2.getD
            (t + 1) [] := by
      show ((scanBack opBody _ _).2 ++ [_]).getD (t + 1) [] = _
      rw [getD_append_lt _ _ (t + 1) [] (by rw [scanBack_snd_length, hxs]; exact hsucc)]
    rw [e1, e2, scanBack_getD_succ opBody _ _ t [] ([], [], [], [], [])
      (by rw [hxs]; exact hsucc), hzip]
    rfl
  · have htK : t + 1 = K := by omega
    have e1 : (offPolicyCore (swapaxes q) (swapaxes v) (swapaxes r) (swapaxes d)
        (swapaxes c)).getD t []
        = (scanBack opBody (zip5 (swapaxes r).dropLast (swapaxes d).dropLast (swapaxes c)
            (swapaxes v).dropLast (swapaxes q))
            (vAdd ((swapaxes r).getLastD [])
              (vMul ((swapaxes d).getLastD []) ((swapaxes v).getLastD [])))).2.getD t []
          := by
      show ((scanBack opBody _ _).2 ++ [_]).getD t [] = _
      rw [getD_append_lt _ _ t [] (by rw [scanBack_snd_length, hxs]; exact ht)]
    have e2 : (offPolicyCore (swapaxes q) (swapaxes v) (swapaxes r) (swapaxes d)
        (swapaxes c)).getD (t + 1) []
        = vAdd ((swapaxes r).getLastD [])
            (vMul ((swapaxes d).getLastD []) ((swapaxes v).getLastD [])) := by
      show ((scanBack opBody _ _).2 ++ [_]).getD (t + 1) [] = _
      rw [getD_append_ge _ _ (t + 1) [] (by rw [scanBack_snd_length, hxs]; omega),
        scanBack_snd_length, hxs, htK]
      simp
    rw [e1, e2, scanBack_getD_last opBody _ _ t [] ([], [], [], [], [])
      (by rw [hxs]; omega), hzip]
    rfl

theorem op_out (q_t v_t r_t discount_t c_t : Mat) (s : Bool) :
    batch_general_off_policy_returns_from_q_and_v q_t v_t r_t discount_t c_t s
      = swapaxes (offPolicyCore (swapaxes q_t) (swapaxes v_t) (swapaxes r_t)
          (swapaxes discount_t) (swapaxes c_t)) := by
  cases s <;> rfl

theorem op_column {q v r d c : Mat} {B K : ℕ} (hq : IsRect q B K) (hc : IsRect c B K)
    (hr : IsRect r B (K + 1)) (hd : IsRect d B (K + 1)) (hv : IsRect v B (K + 1))
    (hB : 1 ≤ B) (s : Bool) (t : ℕ) (ht : t < K + 1) :
    column (batch_general_off_policy_returns_from_q_and_v q v r d c s) t
      = (offPolicyCore (swapaxes q) (swapaxes v) (swapaxes r) (swapaxes d)
          (swapaxes c)).getD t [] := by
  rw [op_out q v r d c s]
  exact column_swapaxes (op_core_rect hq hc hr hd hv hB) (by omega) t ht

/-- C1: for every input (`q` over times `[1..K-1]`, `v, r, d` over `[1..K]`,
mixing weights `c` over `[1..K-1]`),
`batch_general_off_policy_returns_from_q_and_v` returns the sequence `g`
over times `[0..K-1]` defined by the terminal estimate
`g_(K-1) = r_K + d_K*v_K` (independent of `c` and `q`, which do not occur
in it) and the backward recursion
`g_t = r_(t+1) + d_(t+1)*(v_(t+1) - c_(t+1)*q_(t+1) + c_(t+1)*g_(t+1))`.
Stated per time column of the batch-major inputs, with the claim's `K`
equal to `K + 1` here so that `q, c` have `K` steps and `v, r, d` have
`K + 1`. -/
theorem off_policy_returns_spec (q v r d c : Mat) (s : Bool) (B K : ℕ)
    (hq : IsRect q B K) (hc : IsRect c B K) (hr : IsRect r B (K + 1))
    (hd : IsRect d B (K + 1)) (hv : IsRect v B (K + 1)) (hB : 1 ≤ B) (t : ℕ) :
    (t = K →
      column (batch_general_off_policy_returns_from_q_and_v q v r d c s) t
        = vAdd (column r K) (vMul (column d K) (column v K)))
    ∧ (t < K →
      column (batch_general_off_policy_returns_from_q_and_v q v r d c s) t
        = vAdd (column r t) (vMul (column d t)
            (vAdd (vSub (column v t) (vMul (column c t) (column q t)))
              (vMul (column c t)
                (column (batch_general_off_policy_returns_from_q_and_v q v r d c s)
                  (t + 1)))))) := by
  constructor
  · intro he
    subst he
    rw [op_column hq hc hr hd hv hB s t (by omega)]
    exact op_core_getD_last hq hc hr hd hv hB
  · intro ht
    rw [op_column hq hc hr hd hv hB s t (by omega),
      op_column hq hc hr hd hv hB s (t + 1) (by omega)]
    exact op_core_getD_lt hq hc hr hd hv hB t ht

/-- Witness for C1 at a concrete input: `q = [[2]]`, `v = [[1,3]]`,
`r = [[1,1]]`, `d = [[1,1]]`, `c = [[1/2]]`, both the terminal case
(`t = 1`) and the recursion case (`t = 0`). -/
theorem off_policy_returns_spec_witness :
    (column (batch_general_off_policy_returns_from_q_and_v [[2]] [[1, 3]] [[1, 1]]
        [[1, 1]] [[1/2]] false) 1
      = vAdd (column [[1, 1]] 1) (vMul (column [[1, 1]] 1) (column [[1, 3]] 1)))
    ∧ (column (batch_general_off_policy_returns_from_q_and_v [[2]] [[1, 3]] [[1, 1]]
        [[1, 1]] [[1/2]] false) 0
      = vAdd (column [[1, 1]] 0) (vMul (column [[1, 1]] 0)
          (vAdd (vSub (column [[1, 3]] 0) (vMul (column [[1/2]] 0) (column [[2]] 0)))
            (vMul (column [[1/2]] 0)
              (column (batch_general_off_policy_returns_from_q_and_v [[2]] [[1, 3]]
                [[1, 1]] [[1, 1]] [[1/2]] false) (0 + 1)))))) :=
  ⟨(off_policy_returns_spec [[2]] [[1, 3]] [[1, 1]] [[1, 1]] [[1/2]] false 1 1
      (by decide) (by decide) (by decide) (by decide) (by decide) (by decide) 1).1 rfl,
    (off_policy_returns_spec [[2]] [[1, 3]] [[1, 1]] [[1, 1]] [[1/2]] false 1 1
      (by decide) (by decide) (by decide) (by decide) (by decide) (by decide) 0).2
      (by decide)⟩

/-- C4: for every input, `batch_retrace_continuous` computes the mixing
weight `c_t = min(1, exp(log_rho_t)) * lambda`, obtains the generalized
off-policy return by delegating to
`batch_general_off_policy_returns_from_q_and_v` with that `c_t`, and
returns that generalized return minus the stale Q-values `q_(t-1)`
(the gradient-stop has no numeric effect).  `exp` is the abstract
parameter `expF`. -/
theorem retrace_delegates (expF : ℚ → ℚ) (q_tm1 q_t v_t r_t discount_t log_rhos : Mat)
    (lambda_ : LambdaArg) (s : Bool) :
    batch_retrace_continuous expF q_tm1 q_t v_t r_t discount_t log_rhos lambda_ s
      = matSub
          (batch_general_off_policy_returns_from_q_and_v q_t v_t r_t discount_t
            (mulLambda (log_rhos.map (fun row => row.map (fun x => min 1 (expF x))))
              lambda_)
            false)
          q_tm1 := by
  cases s <;> rfl

/-- C9: `batch_n_step_bootstrapped_returns` requires a positive step count:
every call with a non-positive `n` fails during the call (the negative
padding size makes the array concatenation raise, modelled as `none`)
rather than being silently coerced into a result. -/
theorem n_step_nonpositive_fails (r d v : Mat) (n : ℤ) (lambda_t : LambdaArg) (s : Bool)
    (h : n ≤ 0) :
    batch_n_step_bootstrapped_returns r d v n lambda_t s = none := by
  have hcond : min (n - 1) (((swapaxes r).length : ℤ)) ≤ 0 :=
    le_trans (min_le_left _ _) (by omega)
  simp only [batch_n_step_bootstrapped_returns, if_pos hcond]

/-- Witness for C9 at `n = 0`. -/
theorem n_step_nonpositive_fails_witness :
    batch_n_step_bootstrapped_returns [[1]] [[1]] [[1]] 0 (.scalar 1) true = none :=
  n_step_nonpositive_fails [[1]] [[1]] [[1]] 0 (.scalar 1) true (by decide)

/-- C6 (code bug): with `n = 1` the value padding `[v_t[-1]] * 0` is the
rank-1 empty array `jnp.array([])`, which `jnp.concatenate` rejects
against the rank-2 `v_t`, so the call raises (modelled as `none`) instead
of returning the claimed one-step bootstrap
`G_t = r_(t+1) + d_(t+1)*v_(t+1)` (which would be `[[2]]` here). -/
theorem n_step_one_raises :
    batch_n_step_bootstrapped_returns [[1]] [[1/2]] [[2]] 1 (.scalar 1) true = none := by
  with_unfolding_all rfl

set_option maxRecDepth 8000 in
/-- C3: in `batch_n_step_bootstrapped_returns`, positions whose n-step
lookahead runs past the end of the sequence are padded with the final
available bootstrap value repeated, zero rewards and unit discount/lambda,
so padding never injects return mass beyond repeating the terminal value:
for rewards `[1,1,1,1]`, discount `1.0` everywhere, values `[0,0,0,0]` and
`n = 10`, every target equals the sum of the remaining real rewards to the
end of the sequence (targets `[4,3,2,1]`). -/
theorem n_step_terminal_padding :
    batch_n_step_bootstrapped_returns [[1, 1, 1, 1]] [[1, 1, 1, 1]] [[0, 0, 0, 0]] 10
        (.scalar 1) true
      = some [[1 + 1 + 1 + 1, 1 + 1 + 1, 1 + 1, 1]] := by
  with_unfolding_all rfl

/-- C5: for rewards `[[1,1,1]]`, discounts `[[0.9,0.9,0.9]]`, values
`[[0,0,0,0]]`, `lambda = 1.0`, the advantages produced by
`batch_truncated_generalized_advantage_estimation` equal the returns
produced by `batch_n_step_bootstrapped_returns` with `n = 3` covering the
full horizon: both equal the telescoped discounted sums of the remaining
rewards. -/
theorem gae_matches_n_step_concrete :
    (batch_truncated_generalized_advantage_estimation [[1, 1, 1]] [[9/10, 9/10, 9/10]]
        (.scalar 1) [[0, 0, 0, 0]] true false).1
      = [[1 + 9/10 * (1 + 9/10 * 1), 1 + 9/10 * 1, 1]]
    ∧ batch_n_step_bootstrapped_returns [[1, 1, 1]] [[9/10, 9/10, 9/10]] [[0, 0, 0]] 3
        (.scalar 1) true
      = some [[1 + 9/10 * (1 + 9/10 * 1), 1 + 9/10 * 1, 1]] := by
  constructor <;> with_unfolding_all rfl

/-- C10: `check_total_timesteps` returns the given config with exactly one
field rewritten: if `arch.total_timesteps` is `None` it is set to
`n_devices * arch.num_updates * system.rollout_length *
system.update_batch_size * arch.num_envs`; otherwise
`arch.total_timesteps` is left unchanged and `arch.num_updates` is
overwritten with `arch.total_timesteps` floor-divided successively by
`system.rollout_length`, `system.update_batch_size`, `arch.num_envs` and
`n_devices`. -/
theorem check_total_timesteps_spec (n_devices : ℤ) (config : Config) :
    (config.arch.total_timesteps = none →
      check_total_timesteps n_devices config
        = ⟨⟨some (n_devices * config.arch.num_updates * config.system.rollout_length *
              config.system.update_batch_size * config.arch.num_envs),
            config.arch.num_updates, config.arch.num_envs⟩, config.system⟩)
    ∧ (∀ t : ℤ, config.arch.total_timesteps = some t →
      check_total_timesteps n_devices config
        = ⟨⟨some t,
            (((t.fdiv config.system.rollout_length).fdiv
              config.system.update_batch_size).fdiv config.arch.num_envs).fdiv n_devices,
            config.arch.num_envs⟩, config.system⟩) := by
  constructor
  · intro h
    unfold check_total_timesteps
    rw [h]
  · intro t h
    unfold check_total_timesteps
    rw [h]

/-- Witness for C10: one concrete config per branch. -/
theorem check_total_timesteps_spec_witness :
    check_total_timesteps 2 ⟨⟨none, 5, 4⟩, ⟨8, 2⟩⟩
      = ⟨⟨some (2 * 5 * 8 * 2 * 4), 5, 4⟩, ⟨8, 2⟩⟩
    ∧ check_total_timesteps 2 ⟨⟨some 1000, 5, 4⟩, ⟨8, 2⟩⟩
      = ⟨⟨some 1000, ((((1000 : ℤ).fdiv 8).fdiv 2).fdiv 4).fdiv 2, 4⟩, ⟨8, 2⟩⟩ :=
  ⟨(check_total_timesteps_spec 2 ⟨⟨none, 5, 4⟩, ⟨8, 2⟩⟩).1 rfl,
    (check_total_timesteps_spec 2 ⟨⟨some 1000, 5, 4⟩, ⟨8, 2⟩⟩).2 1000 rfl⟩

end Stoix
